import Mathlib

/-!
Verification of `aqt/xmlparser.py` (aqtxmlparser): a shallow embedding of the
manifest parser (`Updates.fromstring`), the dependency-closure traversal
(`Updates.dfs`) and the bidirectional module-to-package index
(`ModuleToPackage`), together with theorems settling the specification
claims about them.

Modelling conventions:
- An already-parsed XML tree is modelled by `XmlNode`; `ElementTree` stores
  the text of an element with no character data as `None`, so `text` is an
  `Option String` and `none` covers both "no text node" and "empty text".
- Python operations that can raise are embedded in `Except PyErr`.
- The generator produced by `ssplit` is embedded as an eagerly materialised
  `List String` (the spec's design note sanctions this); the claims settled
  here do not depend on generator exhaustion.
- Python `dict` is embedded as an association list with unique keys
  (`DictKeysNodup`), insertion order preserved.
-/

/-- Kinds of Python exceptions the embedded code can raise. -/
inductive PyErr where
  /-- Python `TypeError`, e.g. iterating over `None`. -/
  | typeError
  /-- Python `AttributeError`, e.g. `None.text`. -/
  | attributeError
  /-- Python `KeyError`, raised by `d[k]` or `d.pop(k)` on a missing key. -/
  | keyError
  /-- Python `AssertionError`, raised by a failing `assert`. -/
  | assertionError
deriving DecidableEq, Repr

/-- A parsed XML element: tag, optional text, and child elements in document
order. `ElementTree` represents the text of an element with no character
data as `None`, so an absent or empty text node is `text = none`. -/
inductive XmlNode where
  | mk (tag : String) (text : Option String) (children : List XmlNode)

/-- Tag of an element. -/
def XmlNode.tag : XmlNode → String
  | .mk t _ _ => t

/-- Text of an element (`None` when absent or empty, as in `ElementTree`). -/
def XmlNode.text : XmlNode → Option String
  | .mk _ tx _ => tx

/-- Direct children of an element, in document order. -/
def XmlNode.children : XmlNode → List XmlNode
  | .mk _ _ cs => cs

/-- Embeds `element.find(tag)` from `ElementTree`: the first direct child whose tag
matches, or `None`. -/
def XmlNode.find (n : XmlNode) (tag : String) : Option XmlNode :=
  n.children.find? (fun c => c.tag == tag)

/-- Embeds `element.iter(tag)` from `ElementTree`: the element itself (when its tag
matches) followed by all matching descendants, in document (preorder)
order. -/
def XmlNode.iter (n : XmlNode) (tag : String) : List XmlNode :=
  (if n.tag == tag then [n] else []) ++ (n.children.attach.map (fun c => c.1.iter tag)).flatten
termination_by n
decreasing_by
  have h1 : sizeOf c.1 < sizeOf n.children := List.sizeOf_lt_of_mem c.2
  cases n
  simp only [XmlNode.children] at h1
  simp only [XmlNode.mk.sizeOf_spec]
  omega

/-- One entry of the parsed manifest (the `PackageUpdate` dataclass).
`dependencies`, `auto_dependon` and `downloadable_archives` hold the runtime
value produced by `Updates._get_list`: `none` (Python `None`) or a sequence
of strings (the dataclass annotates `dependencies` as a plain `List[str]`,
but `_get_list` can still return `None` for it). -/
structure PackageUpdate where
  name : String
  display_name : String
  description : String
  release_date : String
  version : String
  dependencies : Option (List String)
  auto_dependon : Option (List String)
  downloadable_archives : Option (List String)
  default : Bool
  virtual : Bool
deriving DecidableEq, Repr

/-- The parsed manifest (the `Updates` dataclass). `fromstring` assigns
`element.text` to `application_name` / `application_version`, and
`ElementTree` yields `None` for the text of an empty element, so both
fields are `Option String`. -/
structure Updates where
  application_name : Option String
  application_version : Option String
  package_updates : List PackageUpdate
deriving DecidableEq, Repr

/-- A Python runtime value as far as `Updates._get_boolean` observes one:
a `str`, an `Element`, or `None`. -/
inductive PyVal where
  | pyStr (s : String)
  | pyElem (e : XmlNode)
  | pyNone

/-- Python `==` restricted to the values above: two `str`s compare by
content; a `str` never compares equal to an `Element` or to `None` (neither
`str` nor `Element` implements a cross-type `__eq__`, so `==` falls back to
identity and returns `False`). -/
def pyEq : PyVal → PyVal → Bool
  | .pyStr a, .pyStr b => a == b
  | _, _ => false

/-- The `PyVal` denoted by the result of `element.find(...)`: the found
`Element`, or `None`. -/
def pyOfFind : Option XmlNode → PyVal
  | some e => .pyElem e
  | none => .pyNone

/-- Embeds `Updates._get_text(item)`: the element's text when the element and its
text are both present, the empty string otherwise. -/
def Updates.get_text (item : Option XmlNode) : String :=
  match item with
  | some e =>
    match e.text with
    | some t => t
    | none => ""
  | none => ""

/-- Python `str.strip()` with no argument: remove leading and trailing
whitespace characters (modelled with `Char.isWhitespace`, which covers the
ASCII whitespace Python strips). -/
def pyStrip (s : String) : String :=
  String.mk (((s.data.dropWhile Char.isWhitespace).reverse.dropWhile Char.isWhitespace).reverse)

/-- Worker for Python `str.split(sep)` with a one-character separator:
`acc` holds the characters of the current piece, reversed. Pieces between
consecutive separators are kept as empty strings, exactly as in Python. -/
def pySplitGo (sep : Char) (acc : List Char) : List Char → List String
  | [] => [String.mk acc.reverse]
  | c :: cs =>
    if c = sep then String.mk acc.reverse :: pySplitGo sep [] cs
    else pySplitGo sep (c :: acc) cs

/-- Python `str.split(sep)` for a one-character separator. -/
def pySplit (sep : Char) (s : String) : List String :=
  pySplitGo sep [] s.data

/-- Embeds `ssplit(data)`: `data.split(",")` with each piece `strip()`ed; the
Python generator is materialised eagerly. -/
def ssplit (data : String) : List String :=
  (pySplit ',' data).map pyStrip

/-- Embeds `Updates._get_list(item)`: `None` when the element or its text is
missing, otherwise the `ssplit` of its text. -/
def Updates.get_list (item : Option XmlNode) : Option (List String) :=
  match item with
  | some e =>
    match e.text with
    | some t => some (ssplit t)
    | none => none
  | none => none

/-- Embeds `Updates._get_boolean(item)`: the source compares the string literal
`"true"` against `item` itself — the `Element` (or `None`) returned by
`find` — not against its text, so the comparison is the Python `==` of a
`str` with an `Element`/`None`. -/
def Updates.get_boolean (item : Option XmlNode) : Bool :=
  if pyEq (.pyStr "true") (pyOfFind item) then true else false

/-- The loop body of `Updates.fromstring` (lines 111-134): build one
`PackageUpdate` from a `<PackageUpdate>` element. The positional arguments
of the source constructor call put `package_desc` third and `full_version`
fifth, matching the `description` and `version` fields. -/
def parsePackageUpdate (packageupdate : XmlNode) : PackageUpdate :=
  { name := Updates.get_text (packageupdate.find "Name")
    display_name := Updates.get_text (packageupdate.find "DisplayName")
    description := Updates.get_text (packageupdate.find "Description")
    release_date := Updates.get_text (packageupdate.find "ReleaseDate")
    version := Updates.get_text (packageupdate.find "Version")
    dependencies := Updates.get_list (packageupdate.find "Dependencies")
    auto_dependon := Updates.get_list (packageupdate.find "AutoDependOn")
    downloadable_archives := Updates.get_list (packageupdate.find "DownloadableArchives")
    default := Updates.get_boolean (packageupdate.find "Default")
    virtual := Updates.get_boolean (packageupdate.find "Virtual") }

/-- Embeds `Updates.fromstring` on an already well-formed document tree:
`find("ApplicationName").text` raises `AttributeError` when the element is
missing (and likewise for `ApplicationVersion`), otherwise every descendant
`<PackageUpdate>` element is parsed in document order. -/
def Updates.fromstring (root : XmlNode) : Except PyErr Updates :=
  match root.find "ApplicationName" with
  | none => .error .attributeError
  | some an =>
    match root.find "ApplicationVersion" with
    | none => .error .attributeError
    | some av =>
      .ok { application_name := an.text
            application_version := av.text
            package_updates := (root.iter "PackageUpdate").map parsePackageUpdate }

/-! ## Concrete fixtures used by closed theorems and witnesses -/

/-- A `<PackageUpdate>` element whose `Default` and `Virtual` children both
carry the literal text `true`. -/
def defaultTruePU : XmlNode :=
  .mk "PackageUpdate" none
    [.mk "Name" (some "qt.tools") [],
     .mk "Default" (some "true") [],
     .mk "Virtual" (some "true") []]

/-- A minimal document with both required scalar elements present. -/
def sampleRoot : XmlNode :=
  .mk "Updates" none
    [.mk "ApplicationName" (some "Qt") [],
     .mk "ApplicationVersion" (some "1.0.0") []]

/-! ## Claims C1, C5, C6 -/

/-- Claim C1 (code bug in the source): the claim says `default`/`virtual`
decode to `true` exactly when the child element's text is the literal
`"true"`; the code instead compares `"true"` against the `Element` object
itself, so the fields decode to `false` for every input — including an
element whose text is exactly `"true"`. -/
theorem C1_boolean_fields_always_false :
    (∀ item : Option XmlNode, Updates.get_boolean item = false) ∧
    (∃ e, defaultTruePU.find "Default" = some e ∧ e.text = some "true") ∧
    (parsePackageUpdate defaultTruePU).default = false ∧
    (parsePackageUpdate defaultTruePU).virtual = false := by
  refine ⟨fun item => ?_, ⟨.mk "Default" (some "true") [], rfl, rfl⟩, rfl, rfl⟩
  cases item <;> rfl

/-- Claim C5: parsing fails (with the `AttributeError` of `None.text`) when
`ApplicationName` or `ApplicationVersion` is absent under the document
root, and succeeds when both are present, the two catalog fields being
exactly the respective elements' text. -/
theorem C5_required_scalar_elements :
    (∀ root : XmlNode,
      root.find "ApplicationName" = none ∨ root.find "ApplicationVersion" = none →
      Updates.fromstring root = .error .attributeError) ∧
    (∀ (root an av : XmlNode), root.find "ApplicationName" = some an →
      root.find "ApplicationVersion" = some av →
      ∃ u, Updates.fromstring root = .ok u ∧
        u.application_name = an.text ∧ u.application_version = av.text) := by
  constructor
  · intro root h
    rcases h with h | h
    · simp [Updates.fromstring, h]
    · cases han : root.find "ApplicationName" with
      | none => simp [Updates.fromstring, han]
      | some an => simp [Updates.fromstring, han, h]
  · intro root an av h1 h2
    refine ⟨⟨an.text, av.text, (root.iter "PackageUpdate").map parsePackageUpdate⟩, ?_, rfl, rfl⟩
    simp [Updates.fromstring, h1, h2]

/-- Witness for C5: a document missing both scalars fails, and `sampleRoot`
parses with the exact text of its two scalar elements. -/
theorem C5_required_scalar_elements_witness :
    Updates.fromstring (XmlNode.mk "Updates" none []) = .error .attributeError ∧
    ∃ u, Updates.fromstring sampleRoot = .ok u ∧
      u.application_name = some "Qt" ∧ u.application_version = some "1.0.0" := by
  constructor
  · exact C5_required_scalar_elements.1 _ (Or.inl rfl)
  · obtain ⟨u, h1, h2, h3⟩ := C5_required_scalar_elements.2 sampleRoot
      (.mk "ApplicationName" (some "Qt") []) (.mk "ApplicationVersion" (some "1.0.0") [])
      rfl rfl
    exact ⟨u, h1, h2, h3⟩

/-- Splitting never filters a piece: the number of pieces produced by the
worker of `pySplit` is one more than the number of separators. -/
theorem pySplitGo_length (sep : Char) (acc cs : List Char) :
    (pySplitGo sep acc cs).length = cs.count sep + 1 := by
  induction cs generalizing acc with
  | nil => simp [pySplitGo]
  | cons c cs ih =>
    by_cases h : c = sep <;>
      simp [pySplitGo, h, ih, List.count_cons]

/-- Function `ssplit` keeps every piece, including empty tokens between consecutive
commas: it produces exactly one more piece than there are commas. -/
theorem ssplit_length (data : String) :
    (ssplit data).length = data.data.count ',' + 1 := by
  simp [ssplit, pySplit, pySplitGo_length]

/-- Claim C6: each of the three comma-separated fields is the absent marker
(`none`, not an empty list) when its element is missing or has no text, and
otherwise is the element's text split on commas with each piece stripped of
surrounding whitespace, order preserved; no token is filtered (`ssplit`
yields one piece per comma-separated segment, so empty tokens are kept),
and `"a, b ,c"` splits to `["a", "b", "c"]`. -/
theorem C6_optional_list_fields (pe : XmlNode) :
    ((pe.find "Dependencies" = none → (parsePackageUpdate pe).dependencies = none) ∧
     (∀ e, pe.find "Dependencies" = some e → e.text = none →
        (parsePackageUpdate pe).dependencies = none) ∧
     (∀ e s, pe.find "Dependencies" = some e → e.text = some s →
        (parsePackageUpdate pe).dependencies = some (ssplit s))) ∧
    ((pe.find "AutoDependOn" = none → (parsePackageUpdate pe).auto_dependon = none) ∧
     (∀ e, pe.find "AutoDependOn" = some e → e.text = none →
        (parsePackageUpdate pe).auto_dependon = none) ∧
     (∀ e s, pe.find "AutoDependOn" = some e → e.text = some s →
        (parsePackageUpdate pe).auto_dependon = some (ssplit s))) ∧
    ((pe.find "DownloadableArchives" = none →
        (parsePackageUpdate pe).downloadable_archives = none) ∧
     (∀ e, pe.find "DownloadableArchives" = some e → e.text = none →
        (parsePackageUpdate pe).downloadable_archives = none) ∧
     (∀ e s, pe.find "DownloadableArchives" = some e → e.text = some s →
        (parsePackageUpdate pe).downloadable_archives = some (ssplit s))) ∧
    (∀ s : String, (ssplit s).length = s.data.count ',' + 1) ∧
    ssplit "a, b ,c" = ["a", "b", "c"] ∧ ssplit "a,,b" = ["a", "", "b"] := by
  refine ⟨⟨?_, ?_, ?_⟩, ⟨?_, ?_, ?_⟩, ⟨?_, ?_, ?_⟩, ssplit_length, by decide, by decide⟩ <;>
    first
    | (intro h; simp [parsePackageUpdate, Updates.get_list, h])
    | (intro e h1 h2; simp [parsePackageUpdate, Updates.get_list, h1, h2])
    | (intro e s h1 h2; simp [parsePackageUpdate, Updates.get_list, h1, h2])

/-- Witness for C6: absent element, element with no text, and element with
text `"a, b ,c"`, for the `Dependencies` field. -/
theorem C6_optional_list_fields_witness :
    (parsePackageUpdate (XmlNode.mk "PackageUpdate" none [])).dependencies = none ∧
    (parsePackageUpdate (XmlNode.mk "PackageUpdate" none
      [.mk "Dependencies" none []])).dependencies = none ∧
    (parsePackageUpdate (XmlNode.mk "PackageUpdate" none
      [.mk "Dependencies" (some "a, b ,c") []])).dependencies = some ["a", "b", "c"] := by
  refine ⟨(C6_optional_list_fields _).1.1 rfl,
    (C6_optional_list_fields _).1.2.1 (.mk "Dependencies" none []) rfl rfl, ?_⟩
  have h := (C6_optional_list_fields (XmlNode.mk "PackageUpdate" none
    [.mk "Dependencies" (some "a, b ,c") []])).1.2.2
    (.mk "Dependencies" (some "a, b ,c") []) "a, b ,c" rfl rfl
  rw [h]
  decide

/-! ## The dependency-closure traversal `Updates.dfs` -/

/-- Unfolding equation of `XmlNode.iter` in terms of plain `List.map`. -/
theorem XmlNode.iter_unfold (t : String) (tx : Option String) (cs : List XmlNode) (tag : String) :
    (XmlNode.mk t tx cs).iter tag =
      (if t == tag then [XmlNode.mk t tx cs] else []) ++ (cs.map (fun c => c.iter tag)).flatten := by
  rw [XmlNode.iter]
  simp [XmlNode.tag, XmlNode.children, List.attach_map_coe]

/-- Whether some catalog record's `name` equals `s` (`entry.name == next`
succeeds for some entry). -/
def isMatched (pus : List PackageUpdate) (s : String) : Bool :=
  pus.any (fun e => e.name == s)

theorem isMatched_iff (pus : List PackageUpdate) (s : String) :
    isMatched pus s = true ↔ ∃ e ∈ pus, e.name = s := by
  simp [isMatched]

/-- The scan over `self.package_updates` performed by `dfs` for one popped
identifier `next` (source lines 156-161): every record whose name equals
`next` appends `next` to `visited` and then pushes each of its dependencies
not on the visited list onto the stack; a record whose `dependencies` is
`None` raises `TypeError` when the `for` statement iterates it. The stack
is kept head-topmost, so Python's `filo.append` is a cons. -/
def dfsScan (pus : List PackageUpdate) (next : String) (visited filo : List String) :
    Except PyErr (List String × List String) :=
  match pus with
  | [] => .ok (visited, filo)
  | e :: es =>
    if e.name = next then
      match e.dependencies with
      | none => .error .typeError
      | some deps =>
        dfsScan es next (visited ++ [next])
          (deps.foldl (fun f d => if d ∈ visited ++ [next] then f else d :: f) filo)
    else dfsScan es next visited filo

/-- A scan over a catalog with no record named `next` changes nothing. -/
theorem dfsScan_no_match (next : String) :
    ∀ (pus : List PackageUpdate) (visited filo : List String),
      (∀ e ∈ pus, e.name ≠ next) → dfsScan pus next visited filo = .ok (visited, filo) := by
  intro pus
  induction pus with
  | nil => intro visited filo _; rfl
  | cons e es ih =>
    intro visited filo h
    have he : e.name ≠ next := h e (List.mem_cons_self e es)
    simp only [dfsScan, if_neg he]
    exact ih visited filo (fun x hx => h x (List.mem_cons_of_mem e hx))

/-- Pushing dependencies filtered against a fixed visited list only ever
prepends identifiers that are not on that list. -/
theorem foldl_push_shape (vis : List String) (deps : List String) :
    ∀ filo : List String,
      ∃ g, deps.foldl (fun f d => if d ∈ vis then f else d :: f) filo = g ++ filo ∧
        ∀ d ∈ g, d ∉ vis := by
  induction deps with
  | nil => intro filo; exact ⟨[], rfl, by simp⟩
  | cons d ds ih =>
    intro filo
    by_cases h : d ∈ vis
    · obtain ⟨g, hg, hall⟩ := ih filo
      refine ⟨g, ?_, hall⟩
      simpa [h] using hg
    · obtain ⟨g, hg, hall⟩ := ih (d :: filo)
      refine ⟨g ++ [d], ?_, ?_⟩
      · simp only [List.foldl_cons, if_neg h]
        rw [hg, List.append_assoc]
        rfl
      · intro x hx
        rcases List.mem_append.mp hx with hx | hx
        · exact hall x hx
        · simp only [List.mem_singleton] at hx
          subst hx; exact h

/-- Shape of a successful scan: `visited` gains only copies of `next` (at
least one when a record matches), and the stack gains only identifiers that
were neither on the visited list nor equal to `next`. -/
theorem dfsScan_ok_shape (next : String) :
    ∀ (pus : List PackageUpdate) (visited filo v' f' : List String),
      dfsScan pus next visited filo = .ok (v', f') →
      (∃ k, v' = visited ++ List.replicate k next ∧ (isMatched pus next = true → k ≠ 0)) ∧
      (∃ g, f' = g ++ filo ∧ ∀ d ∈ g, d ∉ visited ∧ d ≠ next) := by
  intro pus
  induction pus with
  | nil =>
    intro visited filo v' f' h
    simp only [dfsScan, Except.ok.injEq, Prod.mk.injEq] at h
    obtain ⟨h1, h2⟩ := h
    subst h1; subst h2
    exact ⟨⟨0, by simp, by simp [isMatched]⟩, ⟨[], rfl, by simp⟩⟩
  | cons e es ih =>
    intro visited filo v' f' h
    by_cases he : e.name = next
    · simp only [dfsScan, if_pos he] at h
      cases hd : e.dependencies with
      | none => rw [hd] at h; exact absurd h (by simp)
      | some deps =>
        rw [hd] at h
        obtain ⟨⟨k, hk, _⟩, ⟨g2, hg2, hall2⟩⟩ := ih (visited ++ [next]) _ v' f' h
        obtain ⟨g1, hg1, hall1⟩ := foldl_push_shape (visited ++ [next]) deps filo
        constructor
        · refine ⟨k + 1, ?_, fun _ => by omega⟩
          rw [hk, List.append_assoc]
          simp [List.replicate_succ]
        · refine ⟨g2 ++ g1, ?_, ?_⟩
          · rw [hg2, hg1, List.append_assoc]
          · intro d hd'
            rcases List.mem_append.mp hd' with h' | h'
            · have h2 := hall2 d h'
              refine ⟨fun hdv => h2.1 (List.mem_append.mpr (Or.inl hdv)), h2.2⟩
            · have h1 := hall1 d h'
              simp only [List.mem_append, List.mem_singleton, not_or] at h1
              exact h1
    · simp only [dfsScan, if_neg he] at h
      obtain ⟨⟨k, hk, hkm⟩, hg⟩ := ih visited filo v' f' h
      refine ⟨⟨k, hk, fun hm => ?_⟩, hg⟩
      apply hkm
      simp only [isMatched, List.any_cons, Bool.or_eq_true, beq_iff_eq] at hm ⊢
      tauto

/-- First component of the termination measure: the number of distinct
record names not yet on the visited list. It never increases, and strictly
decreases when a matched, unvisited identifier is popped. -/
def mu1 (pus : List PackageUpdate) (visited : List String) : Nat :=
  ((pus.map PackageUpdate.name).toFinset \ visited.toFinset).card

/-- Second component: stack entries naming an already-visited record. -/
def mu2 (pus : List PackageUpdate) (filo visited : List String) : Nat :=
  filo.countP (fun s => isMatched pus s && visited.contains s)

/-- Third component: stack entries naming no record at all. -/
def mu3 (pus : List PackageUpdate) (filo : List String) : Nat :=
  filo.countP (fun s => !isMatched pus s)

/-- Lists with the same elements decide membership identically. -/
theorem contains_eq_of_toFinset_eq (l l' : List String) (h : l.toFinset = l'.toFinset)
    (s : String) : l.contains s = l'.contains s := by
  have h1 : s ∈ l ↔ s ∈ l' := by rw [← List.mem_toFinset, h, List.mem_toFinset]
  simp only [List.contains, List.elem_eq_mem]
  exact decide_eq_decide.mpr h1

/-- The lexicographic termination measure of the `dfs` while-loop strictly
decreases across one successful iteration: popping an unmatched identifier
shrinks `mu3`, popping a matched already-visited identifier shrinks `mu2`,
and popping a matched unvisited identifier shrinks `mu1`. -/
theorem dfsScan_measure (pus : List PackageUpdate) (next : String)
    (visited rest v' f' : List String)
    (h : dfsScan pus next visited rest = .ok (v', f')) :
    Prod.Lex (· < ·) (Prod.Lex (· < ·) (· < ·))
      (mu1 pus v', mu2 pus f' v', mu3 pus f')
      (mu1 pus visited, mu2 pus (next :: rest) visited, mu3 pus (next :: rest)) := by
  obtain ⟨⟨k, hk, hkm⟩, ⟨g, hg, hgall⟩⟩ := dfsScan_ok_shape next pus visited rest v' f' h
  by_cases hm : isMatched pus next = true
  · by_cases hv : next ∈ visited
    · -- matched and already visited: `mu1` unchanged, `mu2` strictly smaller
      have hvt : v'.toFinset = visited.toFinset := by
        rw [hk, List.toFinset_append]
        cases k with
        | zero => simp
        | succ k =>
          rw [List.toFinset_replicate_of_ne_zero (Nat.succ_ne_zero k)]
          exact Finset.union_eq_left.mpr (by simp [hv])
      have hmu1 : mu1 pus v' = mu1 pus visited := by rw [mu1, mu1, hvt]
      rw [hmu1]
      apply Prod.Lex.right
      apply Prod.Lex.left
      have e1 : mu2 pus f' v' = mu2 pus f' visited := by
        rw [mu2, mu2]
        apply List.countP_congr
        intro s _
        rw [contains_eq_of_toFinset_eq v' visited hvt s]
      have e2 : mu2 pus f' visited = mu2 pus rest visited := by
        rw [hg, mu2, mu2, List.countP_append]
        have hz : (g.countP fun s => isMatched pus s && visited.contains s) = 0 := by
          rw [List.countP_eq_zero]
          intro a ha
          have hna := (hgall a ha).1
          simp [List.contains, List.elem_eq_mem, hna]
        omega
      rw [e1, e2, mu2, mu2, List.countP_cons]
      simp [hm, hv]
    · -- matched and not yet visited: `mu1` strictly smaller
      apply Prod.Lex.left
      have hk0 : k ≠ 0 := hkm hm
      have hvt : v'.toFinset = visited.toFinset ∪ {next} := by
        rw [hk, List.toFinset_append, List.toFinset_replicate_of_ne_zero hk0]
      rw [mu1, mu1, hvt]
      have hM : next ∈ (pus.map PackageUpdate.name).toFinset := by
        rw [List.mem_toFinset, List.mem_map]
        obtain ⟨e, he, hname⟩ := (isMatched_iff pus next).mp hm
        exact ⟨e, he, hname⟩
      have heq : (pus.map PackageUpdate.name).toFinset \ (visited.toFinset ∪ {next}) =
          ((pus.map PackageUpdate.name).toFinset \ visited.toFinset).erase next := by
        ext x
        simp only [Finset.mem_sdiff, Finset.mem_union, Finset.mem_singleton, Finset.mem_erase,
          List.mem_toFinset, not_or]
        tauto
      rw [heq]
      apply Finset.card_erase_lt_of_mem
      rw [Finset.mem_sdiff]
      exact ⟨hM, by simp [hv]⟩
  · -- no record named `next`: `mu1`, `mu2` unchanged, `mu3` strictly smaller
    have hnm : ∀ e ∈ pus, e.name ≠ next := by
      intro e he hcon
      exact hm ((isMatched_iff pus next).mpr ⟨e, he, hcon⟩)
    have h0 := dfsScan_no_match next pus visited rest hnm
    rw [h0] at h
    obtain ⟨h1, h2⟩ : visited = v' ∧ rest = f' := by simpa using h
    subst h1
    subst h2
    apply Prod.Lex.right
    have hmf : isMatched pus next = false := by
      cases hx : isMatched pus next
      · rfl
      · exact absurd hx hm
    have e1 : mu2 pus (next :: rest) visited = mu2 pus rest visited := by
      rw [mu2, mu2, List.countP_cons]
      simp [hmf]
    rw [e1]
    apply Prod.Lex.right
    rw [mu3, mu3, List.countP_cons]
    simp [hmf]

/-- The while-loop of `Updates.dfs` (source lines 153-161): pop the top of
the stack, append it to `packages`, scan the catalog for records named
after the popped identifier, and continue until the stack is empty or the
scan raises. -/
def dfsLoop (pus : List PackageUpdate) (filo visited packages : List String) :
    Except PyErr (List String) :=
  match filo with
  | [] => .ok packages
  | next :: rest =>
    match _hscan : dfsScan pus next visited rest with
    | .error e => .error e
    | .ok vf => dfsLoop pus vf.2 vf.1 (packages ++ [next])
termination_by (mu1 pus visited, mu2 pus filo visited, mu3 pus filo)
decreasing_by
  exact dfsScan_measure pus next visited rest vf.1 vf.2 _hscan

/-- Unfolding equation of `dfsLoop` on the empty stack. -/
theorem dfsLoop_nil (pus : List PackageUpdate) (visited packages : List String) :
    dfsLoop pus [] visited packages = .ok packages := by
  rw [dfsLoop.eq_def]

/-- Unfolding equation of `dfsLoop` on a non-empty stack, with a plain
match on the scan result. -/
theorem dfsLoop_cons (pus : List PackageUpdate) (next : String)
    (rest visited packages : List String) :
    dfsLoop pus (next :: rest) visited packages =
      (match dfsScan pus next visited rest with
       | .error e => .error e
       | .ok vf => dfsLoop pus vf.2 vf.1 (packages ++ [next])) := by
  rw [dfsLoop.eq_def]
  split <;> rename_i heq
  · exact absurd heq (by simp)
  · injection heq with heq1 heq2
    subst heq1
    subst heq2
    split <;> rename_i heq2 <;> simp [heq2]

/-- Embeds `Updates.dfs(target)` (source lines 147-162): stack-based traversal of
the dependency closure of `target`, reported as the list of popped
identifiers. -/
def Updates.dfs (self : Updates) (target : String) : Except PyErr (List String) :=
  dfsLoop self.package_updates [target] [] []

/-- The `dfs` while-loop run on explicit fuel: `none` means the loop had
not finished after the given number of iterations. -/
def dfsFuel (pus : List PackageUpdate) :
    Nat → List String → List String → List String → Option (Except PyErr (List String))
  | 0, _, _, _ => none
  | _ + 1, [], _, packages => some (.ok packages)
  | n + 1, next :: rest, visited, packages =>
    match dfsScan pus next visited rest with
    | .error e => some (.error e)
    | .ok vf => dfsFuel pus n vf.2 vf.1 (packages ++ [next])

/-- Every identifier already on `packages` appears in the final result of a
successful run of the loop. -/
theorem dfsLoop_packages_sub (pus : List PackageUpdate) (filo visited packages : List String) :
    ∀ r, dfsLoop pus filo visited packages = .ok r → ∀ x ∈ packages, x ∈ r := by
  induction filo, visited, packages using dfsLoop.induct pus with
  | case1 visited packages =>
    intro r h x hx
    rw [dfsLoop_nil] at h
    injection h with h
    subst h
    exact hx
  | case2 visited packages next rest e hscan =>
    intro r h
    rw [dfsLoop_cons, hscan] at h
    exact absurd h (by simp)
  | case3 visited packages next rest vf hscan ih =>
    intro r h x hx
    rw [dfsLoop_cons, hscan] at h
    exact ih r h x (List.mem_append.mpr (Or.inl hx))

/-- A scan cannot raise when every record's dependencies were parsed to an
actual sequence. -/
theorem dfsScan_ok_of_deps (next : String) :
    ∀ (pus : List PackageUpdate) (visited filo : List String),
      (∀ e ∈ pus, e.dependencies ≠ none) →
      ∃ vf, dfsScan pus next visited filo = .ok vf := by
  intro pus
  induction pus with
  | nil => intro visited filo _; exact ⟨(visited, filo), rfl⟩
  | cons e es ih =>
    intro visited filo hd
    by_cases he : e.name = next
    · cases hdep : e.dependencies with
      | none => exact absurd hdep (hd e (List.mem_cons_self e es))
      | some deps =>
        simp only [dfsScan, if_pos he, hdep]
        exact ih _ _ (fun x hx => hd x (List.mem_cons_of_mem e hx))
    · simp only [dfsScan, if_neg he]
      exact ih _ _ (fun x hx => hd x (List.mem_cons_of_mem e hx))

/-- The loop completes with a result when no record has `None`
dependencies. -/
theorem dfsLoop_ok_of_deps (pus : List PackageUpdate)
    (hd : ∀ e ∈ pus, e.dependencies ≠ none) (filo visited packages : List String) :
    ∃ r, dfsLoop pus filo visited packages = .ok r := by
  induction filo, visited, packages using dfsLoop.induct pus with
  | case1 visited packages => exact ⟨packages, dfsLoop_nil pus visited packages⟩
  | case2 visited packages next rest e hscan =>
    obtain ⟨vf, hvf⟩ := dfsScan_ok_of_deps next pus visited rest hd
    rw [hscan] at hvf
    exact absurd hvf (by simp)
  | case3 visited packages next rest vf hscan ih =>
    obtain ⟨r, hr⟩ := ih
    refine ⟨r, ?_⟩
    rw [dfsLoop_cons, hscan]
    exact hr

/-- Enough fuel always exists: the while-loop finishes after finitely many
iterations on every catalog. -/
theorem dfsFuel_completes (pus : List PackageUpdate) (filo visited packages : List String) :
    ∃ n, dfsFuel pus n filo visited packages = some (dfsLoop pus filo visited packages) := by
  induction filo, visited, packages using dfsLoop.induct pus with
  | case1 visited packages => exact ⟨1, by rw [dfsLoop_nil]; rfl⟩
  | case2 visited packages next rest e hscan =>
    refine ⟨1, ?_⟩
    rw [dfsLoop_cons, hscan]
    simp [dfsFuel, hscan]
  | case3 visited packages next rest vf hscan ih =>
    obtain ⟨n, hn⟩ := ih
    refine ⟨n + 1, ?_⟩
    rw [dfsLoop_cons, hscan]
    simp only [dfsFuel, hscan]
    exact hn

/-- Builder for catalog records used in concrete instances. -/
def puMk (name : String) (deps : Option (List String)) : PackageUpdate :=
  { name := name, display_name := "", description := "", release_date := "",
    version := "", dependencies := deps, auto_dependon := none,
    downloadable_archives := none, default := false, virtual := false }

/-- A catalog whose single record `a` has `dependencies = None` (its
`Dependencies` element was absent), exactly as the parser produces it. -/
def depsNoneCatalog : Updates :=
  { application_name := some "Qt", application_version := some "1",
    package_updates := [puMk "a" none] }

/-- A catalog with a dependency cycle between `a` and `b`. -/
def cycleCatalog : Updates :=
  { application_name := some "Qt", application_version := some "1",
    package_updates := [puMk "a" (some ["b"]), puMk "b" (some ["a"])] }

/-- A well-formed document whose only record has no `Dependencies`
element. -/
def rootDepsNone : XmlNode :=
  .mk "Updates" none
    [.mk "ApplicationName" (some "Qt") [],
     .mk "ApplicationVersion" (some "1") [],
     .mk "PackageUpdate" none [.mk "Name" (some "a") []]]

/-- Claim C2 (code bug in the source): the claim says the traversal raises
no error regardless of how dependencies were parsed; but on a parsed
catalog whose matched record has `None` dependencies (absent or empty
`Dependencies` element), `dfs` raises `TypeError` when
`for depend in entry.dependencies` iterates `None` — contradicting both
the claim and the `dependencies: List[str]` annotation of the dataclass. -/
theorem C2_dfs_raises_on_none_dependencies :
    ∃ u, Updates.fromstring rootDepsNone = .ok u ∧
      u.package_updates = [puMk "a" none] ∧
      u.dfs "a" = .error .typeError := by
  have hiter : rootDepsNone.iter "PackageUpdate" =
      [.mk "PackageUpdate" none [.mk "Name" (some "a") []]] := by
    simp [rootDepsNone, XmlNode.iter_unfold, XmlNode.tag, XmlNode.children]
  refine ⟨{ application_name := some "Qt", application_version := some "1",
            package_updates := (rootDepsNone.iter "PackageUpdate").map parsePackageUpdate },
          rfl, ?_, ?_⟩
  · rw [hiter]; rfl
  · show dfsLoop ((rootDepsNone.iter "PackageUpdate").map parsePackageUpdate)
      ["a"] [] [] = .error .typeError
    rw [hiter, dfsLoop_cons]
    rfl

/-- Counterexample to claim C3 as stated: on `depsNoneCatalog` the
traversal raises instead of returning, so no returned result contains the
target. -/
theorem C3_counterexample_no_result :
    depsNoneCatalog.dfs "a" = .error .typeError ∧
    ¬∃ r, depsNoneCatalog.dfs "a" = Except.ok r ∧ "a" ∈ r := by
  have h : depsNoneCatalog.dfs "a" = .error .typeError := by
    rw [Updates.dfs, dfsLoop_cons]
    rfl
  refine ⟨h, ?_⟩
  rintro ⟨r, hr, _⟩
  rw [h] at hr
  exact absurd hr (by simp)

/-- Claim C3 (amended): whenever `dfs(target)` returns without raising, the
result contains `target` at least once; and on a catalog in which no
record's name equals `target`, `dfs(target)` returns exactly `[target]`.
(The claim as stated fails only because `dfs` can raise; see C2.) -/
theorem C3_dfs_returns_target (u : Updates) (t : String) :
    (∀ r, u.dfs t = .ok r → t ∈ r) ∧
    ((∀ e ∈ u.package_updates, e.name ≠ t) → u.dfs t = .ok [t]) := by
  constructor
  · intro r h
    rw [Updates.dfs, dfsLoop_cons] at h
    rcases hscan : dfsScan u.package_updates t [] [] with e | vf
    · rw [hscan] at h
      exact absurd h (by simp)
    · rw [hscan] at h
      exact dfsLoop_packages_sub u.package_updates vf.2 vf.1 ([] ++ [t]) r h t (by simp)
  · intro hnm
    rw [Updates.dfs, dfsLoop_cons, dfsScan_no_match t u.package_updates [] [] hnm]
    show dfsLoop u.package_updates [] [] [t] = .ok [t]
    exact dfsLoop_nil u.package_updates [] [t]

/-- Witness for C3 (amended) at a target that names no record. -/
theorem C3_dfs_returns_target_witness :
    cycleCatalog.dfs "zzz" = Except.ok ["zzz"] ∧ "zzz" ∈ ["zzz"] := by
  have h2 := (C3_dfs_returns_target cycleCatalog "zzz").2 (by decide)
  exact ⟨h2, (C3_dfs_returns_target cycleCatalog "zzz").1 ["zzz"] h2⟩

/-- Claim C4: on every finite catalog — dependency cycles, duplicate-named
records and re-pushed identifiers included — the traversal terminates:
some finite fuel makes the fueled while-loop return `dfs`'s outcome; and
whenever every record's dependencies were parsed to an actual sequence,
the loop runs the stack down to empty and returns a result. -/
theorem C4_dfs_terminates (u : Updates) (t : String) :
    (∃ n, dfsFuel u.package_updates n [t] [] [] = some (u.dfs t)) ∧
    ((∀ e ∈ u.package_updates, e.dependencies ≠ none) → ∃ r, u.dfs t = .ok r) := by
  exact ⟨dfsFuel_completes u.package_updates [t] [] [],
    fun hd => dfsLoop_ok_of_deps u.package_updates hd [t] [] []⟩

/-- Witness for C4 on a cyclic catalog. -/
theorem C4_dfs_terminates_witness : ∃ r, cycleCatalog.dfs "a" = Except.ok r :=
  (C4_dfs_terminates cycleCatalog "a").2 (by decide)

/-! ## The module-to-package bidirectional index -/

/-- A Python `dict` with `String` keys, embedded as an association list in
insertion order. A real `dict` never holds a duplicate key; the operations
below preserve that, and theorems assume it where needed via
`DictKeysNodup`. -/
abbrev Dict (β : Type) := List (String × β)

/-- Python `d[k]` as an option: the value at the matching key. -/
def dictGet? {β : Type} : Dict β → String → Option β
  | [], _ => none
  | (k, v) :: rest, key => if k = key then some v else dictGet? rest key

/-- Python `k in d`. -/
def dictMem {β : Type} (d : Dict β) (key : String) : Bool :=
  (dictGet? d key).isSome

/-- Python `d[k] = v`: overwrite the existing entry in place, or append a new
one. -/
def dictSet {β : Type} : Dict β → String → β → Dict β
  | [], key, val => [(key, val)]
  | (k, v) :: rest, key, val =>
    if k = key then (k, val) :: rest else (k, v) :: dictSet rest key val

/-- The removal performed by `d.pop(k)`: drop the entry with the given
key. -/
def dictPop {β : Type} : Dict β → String → Dict β
  | [], _ => []
  | (k, v) :: rest, key => if k = key then rest else (k, v) :: dictPop rest key

/-- Keys are pairwise distinct — always true of a Python `dict`. -/
def DictKeysNodup {β : Type} (d : Dict β) : Prop :=
  (d.map Prod.fst).Nodup

theorem dictGet?_set_self {β : Type} (d : Dict β) (k : String) (v : β) :
    dictGet? (dictSet d k v) k = some v := by
  induction d with
  | nil => simp [dictSet, dictGet?]
  | cons kv rest ih =>
    obtain ⟨k0, v0⟩ := kv
    by_cases h : k0 = k <;> simp [dictSet, dictGet?, h, ih]

theorem dictGet?_set_ne {β : Type} (d : Dict β) (k : String) (v : β) (q : String)
    (hne : k ≠ q) : dictGet? (dictSet d k v) q = dictGet? d q := by
  induction d with
  | nil => simp [dictSet, dictGet?, hne]
  | cons kv rest ih =>
    obtain ⟨k0, v0⟩ := kv
    by_cases h : k0 = k
    · subst h
      simp [dictSet, dictGet?, hne, ih]
    · simp only [dictSet, if_neg h]
      by_cases h0 : k0 = q <;> simp [dictGet?, h0, ih]

theorem mem_keys_dictSet {β : Type} (d : Dict β) (k : String) (v : β) (x : String)
    (hx : x ∈ (dictSet d k v).map Prod.fst) : x ∈ d.map Prod.fst ∨ x = k := by
  induction d with
  | nil => simpa [dictSet] using hx
  | cons kv rest ih =>
    obtain ⟨k0, v0⟩ := kv
    by_cases h : k0 = k
    · simp only [dictSet, if_pos h, List.map_cons] at hx
      exact Or.inl (by simpa using hx)
    · simp only [dictSet, if_neg h, List.map_cons, List.mem_cons] at hx
      rcases hx with hx | hx
      · exact Or.inl (by simp [hx])
      · rcases ih hx with h' | h'
        · exact Or.inl (by simp [h'])
        · exact Or.inr h'

theorem keysNodup_dictSet {β : Type} (d : Dict β) (k : String) (v : β)
    (hd : DictKeysNodup d) : DictKeysNodup (dictSet d k v) := by
  induction d with
  | nil => simp [DictKeysNodup, dictSet]
  | cons kv rest ih =>
    obtain ⟨k0, v0⟩ := kv
    simp only [DictKeysNodup, List.map_cons, List.nodup_cons] at hd
    by_cases h : k0 = k
    · simp only [DictKeysNodup, dictSet, if_pos h, List.map_cons, List.nodup_cons]
      exact hd
    · simp only [DictKeysNodup, dictSet, if_neg h, List.map_cons, List.nodup_cons]
      refine ⟨fun hc => ?_, ih hd.2⟩
      rcases mem_keys_dictSet rest k v k0 hc with h' | h'
      · exact hd.1 h'
      · exact h h'

theorem dictGet?_eq_none {β : Type} (d : Dict β) (k : String)
    (h : k ∉ d.map Prod.fst) : dictGet? d k = none := by
  induction d with
  | nil => rfl
  | cons kv rest ih =>
    obtain ⟨k0, v0⟩ := kv
    simp only [List.map_cons, List.mem_cons, not_or] at h
    simp [dictGet?, Ne.symm h.1, ih h.2]

theorem dictPop_sublist {β : Type} (d : Dict β) (k : String) : List.Sublist (dictPop d k) d := by
  induction d with
  | nil => simp [dictPop]
  | cons kv rest ih =>
    obtain ⟨k0, v0⟩ := kv
    by_cases h : k0 = k
    · simp only [dictPop, if_pos h]
      exact List.sublist_cons_self (k0, v0) rest
    · simpa [dictPop, h] using ih.cons₂ (k0, v0)

theorem keysNodup_dictPop {β : Type} (d : Dict β) (k : String)
    (hd : DictKeysNodup d) : DictKeysNodup (dictPop d k) :=
  ((dictPop_sublist d k).map Prod.fst).nodup hd

theorem dictGet?_pop_self {β : Type} (d : Dict β) (k : String)
    (hd : DictKeysNodup d) : dictGet? (dictPop d k) k = none := by
  induction d with
  | nil => rfl
  | cons kv rest ih =>
    obtain ⟨k0, v0⟩ := kv
    simp only [DictKeysNodup, List.map_cons, List.nodup_cons] at hd
    by_cases h : k0 = k
    · subst h
      simp only [dictPop, if_pos rfl]
      exact dictGet?_eq_none rest k0 hd.1
    · simp [dictPop, h, dictGet?, ih hd.2]

theorem dictGet?_pop_ne {β : Type} (d : Dict β) (k q : String) (hne : k ≠ q) :
    dictGet? (dictPop d k) q = dictGet? d q := by
  induction d with
  | nil => rfl
  | cons kv rest ih =>
    obtain ⟨k0, v0⟩ := kv
    by_cases h : k0 = k
    · subst h
      simp [dictPop, dictGet?, hne, ih]
    · by_cases h0 : k0 = q
      · subst h0
        simp [dictPop, h, dictGet?]
      · simp [dictPop, h, dictGet?, h0, ih]

theorem mem_of_dictGet? {β : Type} (d : Dict β) (k : String) (v : β)
    (h : dictGet? d k = some v) : (k, v) ∈ d := by
  induction d with
  | nil => simp [dictGet?] at h
  | cons kv rest ih =>
    obtain ⟨k0, v0⟩ := kv
    by_cases h0 : k0 = k
    · subst h0
      simp only [dictGet?, if_pos rfl] at h
      injection h with h
      subst h
      exact List.mem_cons_self _ _
    · simp only [dictGet?, if_neg h0] at h
      exact List.mem_cons_of_mem _ (ih h)

theorem dictGet?_of_mem {β : Type} (d : Dict β) (k : String) (v : β)
    (hd : DictKeysNodup d) (h : (k, v) ∈ d) : dictGet? d k = some v := by
  induction d with
  | nil => simp at h
  | cons kv rest ih =>
    obtain ⟨k0, v0⟩ := kv
    simp only [DictKeysNodup, List.map_cons, List.nodup_cons] at hd
    rcases List.mem_cons.mp h with h | h
    · injection h with h1 h2
      subst h1
      subst h2
      simp [dictGet?]
    · have hk : k ∈ rest.map Prod.fst := List.mem_map_of_mem Prod.fst h
      have hne : k0 ≠ k := fun he => hd.1 (he ▸ hk)
      simp [dictGet?, hne, ih hd.2 h]

/-- The `ModuleToPackage` class state: the forward map from module name to
candidate package-name list, and the derived reverse map. -/
structure ModuleToPackage where
  modules_to_packages : Dict (List String)
  packages_to_modules : Dict String
deriving DecidableEq, Repr

/-- Embeds `ModuleToPackage.__init__(initial_map)`: store the forward map and
build the reverse map by the comprehension
`{value: key for key, list_of_values in initial_map.items() for value in list_of_values}`;
a later binding for the same package overwrites an earlier one. -/
def ModuleToPackage.init (initial_map : Dict (List String)) : ModuleToPackage :=
  { modules_to_packages := initial_map
    packages_to_modules :=
      initial_map.foldl (fun acc kv => kv.2.foldl (fun acc2 v => dictSet acc2 v kv.1) acc) [] }

/-- The reverse-map insertion loop of `ModuleToPackage.add`: for each
package name in order, assert that it is not yet a key of the reverse map
("Detected a package name collision"), then bind it to the module. -/
def addRev (module_name : String) : List String → Dict String → Except PyErr (Dict String)
  | [], rev => .ok rev
  | p :: ps, rev =>
    if dictMem rev p then .error .assertionError
    else addRev module_name ps (dictSet rev p module_name)

/-- Embeds `ModuleToPackage.add(module_name, package_names)`: extend the module's
candidate list (creating the entry if absent) and insert every candidate
into the reverse map, failing with `AssertionError` on a collision. The
source updates the forward map before running the assertion loop; the
embedding returns the updated state only for a successful call and the
exception otherwise, which is observationally the same for every claim
below (none inspects the state after a raise). -/
def ModuleToPackage.add (self : ModuleToPackage) (module_name : String)
    (package_names : List String) : Except PyErr ModuleToPackage :=
  match addRev module_name package_names self.packages_to_modules with
  | .error e => .error e
  | .ok rev =>
    .ok { modules_to_packages :=
            dictSet self.modules_to_packages module_name
              ((dictGet? self.modules_to_packages module_name).getD [] ++ package_names)
          packages_to_modules := rev }

/-- The reverse-map removal loop of `remove_module_for_package`:
`self._packages_to_modules.pop(package_name)` for every candidate of the
owning module, where `pop` raises `KeyError` on a missing key. -/
def popRev : List String → Dict String → Except PyErr (Dict String)
  | [], rev => .ok rev
  | p :: ps, rev =>
    if dictMem rev p then popRev ps (dictPop rev p) else .error .keyError

/-- Embeds `ModuleToPackage.remove_module_for_package(package_name)`: look up the
owning module in the reverse map (`KeyError` when the package is unknown),
read the module's candidate list from the forward map, pop every candidate
from the reverse map, then delete the module from the forward map. -/
def ModuleToPackage.remove_module_for_package (self : ModuleToPackage)
    (package_name : String) : Except PyErr ModuleToPackage :=
  match dictGet? self.packages_to_modules package_name with
  | none => .error .keyError
  | some module_name =>
    match dictGet? self.modules_to_packages module_name with
    | none => .error .keyError
    | some plist =>
      match popRev plist self.packages_to_modules with
      | .error e => .error e
      | .ok rev =>
        .ok { modules_to_packages := dictPop self.modules_to_packages module_name
              packages_to_modules := rev }

/-- Embeds `ModuleToPackage.has_package(package_name)`: membership test against
the reverse map. -/
def ModuleToPackage.has_package (self : ModuleToPackage) (package_name : String) : Bool :=
  dictMem self.packages_to_modules package_name

/-- Embeds `ModuleToPackage.get_modules()`: the forward map's keys. -/
def ModuleToPackage.get_modules (self : ModuleToPackage) : List String :=
  self.modules_to_packages.map Prod.fst

/-- The invariant of claim C7: the reverse map is the exact inverse of the
forward map — a package maps to a module exactly when it occurs in that
module's candidate list. -/
def Inverse (s : ModuleToPackage) : Prop :=
  ∀ p m, dictGet? s.packages_to_modules p = some m ↔
    p ∈ (dictGet? s.modules_to_packages m).getD []

/-- Both component dicts have pairwise-distinct keys, as real Python dicts
always do. -/
def PyDicts (s : ModuleToPackage) : Prop :=
  DictKeysNodup s.modules_to_packages ∧ DictKeysNodup s.packages_to_modules

/-- A successful reverse-map insertion loop binds exactly the given
packages to the module, leaves every other key unchanged, and can only
have succeeded because none of the packages was a key beforehand. -/
theorem addRev_ok (m : String) :
    ∀ (ps : List String) (rev rev' : Dict String), addRev m ps rev = .ok rev' →
      (∀ q, q ∉ ps → dictGet? rev' q = dictGet? rev q) ∧
      (∀ q ∈ ps, dictGet? rev' q = some m) ∧
      (∀ q ∈ ps, dictGet? rev q = none) := by
  intro ps
  induction ps with
  | nil =>
    intro rev rev' h
    simp only [addRev, Except.ok.injEq] at h
    subst h
    exact ⟨fun q _ => rfl, by simp, by simp⟩
  | cons p ps' ih =>
    intro rev rev' h
    simp only [addRev] at h
    by_cases hp : dictMem rev p
    · rw [if_pos hp] at h
      exact absurd h (by simp)
    · rw [if_neg hp] at h
      obtain ⟨h1, h2, h3⟩ := ih (dictSet rev p m) rev' h
      have hnone : dictGet? rev p = none := by
        cases hg : dictGet? rev p with
        | none => rfl
        | some v => exact absurd (by simp [dictMem, hg]) hp
      refine ⟨?_, ?_, ?_⟩
      · intro q hq
        simp only [List.mem_cons, not_or] at hq
        rw [h1 q hq.2, dictGet?_set_ne rev p m q (fun he => hq.1 he.symm)]
      · intro q hq
        rcases List.mem_cons.mp hq with hq | hq
        · subst hq
          by_cases hq' : q ∈ ps'
          · exact h2 q hq'
          · rw [h1 q hq', dictGet?_set_self]
        · exact h2 q hq
      · intro q hq
        rcases List.mem_cons.mp hq with hq | hq
        · subst hq
          exact hnone
        · by_cases hpq : p = q
          · subst hpq
            exact hnone
          · have h' := h3 q hq
            rwa [dictGet?_set_ne rev p m q hpq] at h'

/-- A successful insertion loop keeps the reverse map's keys distinct. -/
theorem addRev_keysNodup (m : String) :
    ∀ (ps : List String) (rev rev' : Dict String), addRev m ps rev = .ok rev' →
      DictKeysNodup rev → DictKeysNodup rev' := by
  intro ps
  induction ps with
  | nil =>
    intro rev rev' h hd
    simp only [addRev, Except.ok.injEq] at h
    subst h
    exact hd
  | cons p ps' ih =>
    intro rev rev' h hd
    simp only [addRev] at h
    by_cases hp : dictMem rev p
    · rw [if_pos hp] at h
      exact absurd h (by simp)
    · rw [if_neg hp] at h
      exact ih _ _ h (keysNodup_dictSet rev p m hd)

/-- The insertion loop fails with the collision assertion whenever some
candidate is already a key of the reverse map. -/
theorem addRev_error (m : String) :
    ∀ (ps : List String) (rev : Dict String), (∃ p ∈ ps, dictMem rev p = true) →
      addRev m ps rev = .error .assertionError := by
  intro ps
  induction ps with
  | nil =>
    rintro rev ⟨p, hp, _⟩
    simp at hp
  | cons c cs ih =>
    rintro rev ⟨p, hp, hmem⟩
    by_cases hc : dictMem rev c
    · simp [addRev, hc]
    · have hpc : p ≠ c := fun he => hc (he ▸ hmem)
      have hp' : p ∈ cs := by
        rcases List.mem_cons.mp hp with h | h
        · exact absurd h hpc
        · exact h
      simp only [addRev, if_neg hc]
      apply ih
      refine ⟨p, hp', ?_⟩
      simp only [dictMem] at hmem ⊢
      rw [dictGet?_set_ne rev c m p (fun he => hpc he.symm)]
      exact hmem

/-- A successful removal loop clears exactly the given keys and keeps the
keys distinct. -/
theorem popRev_ok :
    ∀ (ps : List String) (rev rev' : Dict String), DictKeysNodup rev →
      popRev ps rev = .ok rev' →
      (∀ q, dictGet? rev' q = if q ∈ ps then none else dictGet? rev q) ∧
      DictKeysNodup rev' := by
  intro ps
  induction ps with
  | nil =>
    intro rev rev' hd h
    simp only [popRev, Except.ok.injEq] at h
    subst h
    exact ⟨fun q => by simp, hd⟩
  | cons p ps' ih =>
    intro rev rev' hd h
    simp only [popRev] at h
    by_cases hp : dictMem rev p
    · rw [if_pos hp] at h
      obtain ⟨h1, h2⟩ := ih (dictPop rev p) rev' (keysNodup_dictPop rev p hd) h
      refine ⟨fun q => ?_, h2⟩
      rw [h1 q]
      by_cases hq : q ∈ ps'
      · simp [hq]
      · by_cases hqp : q = p
        · subst hqp
          simp [hq, dictGet?_pop_self rev q hd]
        · simp [hq, hqp, dictGet?_pop_ne rev p q (fun he => hqp he.symm)]
    · rw [if_neg hp] at h
      exact absurd h (by simp)

/-- The removal loop succeeds when the keys are distinct and all present. -/
theorem popRev_succeeds :
    ∀ (ps : List String) (rev : Dict String), ps.Nodup →
      (∀ q ∈ ps, dictMem rev q = true) →
      ∃ rev', popRev ps rev = .ok rev' := by
  intro ps
  induction ps with
  | nil => intro rev _ _; exact ⟨rev, rfl⟩
  | cons p ps' ih =>
    intro rev hnd hall
    have hp : dictMem rev p = true := hall p (List.mem_cons_self p ps')
    simp only [popRev, if_pos hp]
    apply ih
    · exact (List.nodup_cons.mp hnd).2
    · intro q hq
      have hqp : p ≠ q := fun he => (List.nodup_cons.mp hnd).1 (he ▸ hq)
      simp only [dictMem]
      rw [dictGet?_pop_ne rev p q hqp]
      exact hall q (List.mem_cons_of_mem p hq)

/-- Lookup after the inner fold of the `__init__` comprehension: every
value of the list becomes a key bound to the module, other keys are
untouched. -/
theorem init_inner_get (m : String) :
    ∀ (l : List String) (acc : Dict String) (q : String),
      dictGet? (l.foldl (fun acc2 v => dictSet acc2 v m) acc) q =
        if q ∈ l then some m else dictGet? acc q := by
  intro l
  induction l with
  | nil => intro acc q; simp
  | cons v vs ih =>
    intro acc q
    rw [List.foldl_cons, ih]
    by_cases hq : q ∈ vs
    · simp [hq]
    · by_cases hv : q = v
      · subst hv
        simp [hq, dictGet?_set_self]
      · simp [hq, hv, dictGet?_set_ne acc v m q (fun he => hv he.symm)]

/-- Lookup after the outer fold of the `__init__` comprehension, for a
package contained in no candidate list: the accumulator decides. -/
theorem init_outer_get_not_mem :
    ∀ (im : Dict (List String)) (acc : Dict String) (q : String),
      (∀ kv ∈ im, q ∉ kv.2) →
      dictGet? (im.foldl (fun acc kv => kv.2.foldl (fun acc2 v => dictSet acc2 v kv.1) acc) acc) q =
        dictGet? acc q := by
  intro im
  induction im with
  | nil => intro acc q _; rfl
  | cons kv im' ih =>
    intro acc q hq
    rw [List.foldl_cons, ih _ q (fun x hx => hq x (List.mem_cons_of_mem kv hx)), init_inner_get]
    simp [hq kv (List.mem_cons_self kv im')]

/-- Lookup after the outer fold of the `__init__` comprehension, for a
package all of whose containing entries carry the same module key. -/
theorem init_outer_get_mem :
    ∀ (im : Dict (List String)) (acc : Dict String) (m q : String),
      (∀ kv ∈ im, q ∈ kv.2 → kv.1 = m) →
      ((∃ kv ∈ im, q ∈ kv.2) ∨ dictGet? acc q = some m) →
      dictGet? (im.foldl (fun acc kv => kv.2.foldl (fun acc2 v => dictSet acc2 v kv.1) acc) acc) q =
        some m := by
  intro im
  induction im with
  | nil =>
    intro acc m q _ hin
    rcases hin with ⟨kv, hkv, _⟩ | hacc
    · simp at hkv
    · exact hacc
  | cons kv im' ih =>
    intro acc m q hall hin
    rw [List.foldl_cons]
    by_cases hq : q ∈ kv.2
    · have hkey : kv.1 = m := hall kv (List.mem_cons_self kv im') hq
      apply ih _ m q (fun x hx hq' => hall x (List.mem_cons_of_mem kv hx) hq')
      right
      rw [init_inner_get]
      simp [hq, hkey]
    · apply ih _ m q (fun x hx hq' => hall x (List.mem_cons_of_mem kv hx) hq')
      rcases hin with ⟨kv', hkv', hq'⟩ | hacc
      · rcases List.mem_cons.mp hkv' with h | h
        · subst h
          exact absurd hq' hq
        · exact Or.inl ⟨kv', h, hq'⟩
      · right
        rw [init_inner_get]
        simp [hq, hacc]

/-- Construction from a well-formed initial map (distinct module keys, no
package under two different modules) establishes the inverse invariant. -/
theorem init_inverse (im : Dict (List String))
    (hkeys : (im.map Prod.fst).Nodup)
    (hcross : ∀ m1 l1 m2 l2, (m1, l1) ∈ im → (m2, l2) ∈ im → m1 ≠ m2 →
      ∀ p, p ∈ l1 → p ∉ l2) :
    Inverse (ModuleToPackage.init im) := by
  intro p m
  constructor
  · intro h
    by_cases hex : ∃ kv ∈ im, p ∈ kv.2
    · obtain ⟨kv, hkv, hp⟩ := hex
      have hall : ∀ kv' ∈ im, p ∈ kv'.2 → kv'.1 = kv.1 := by
        intro kv' hkv' hp'
        by_contra hne
        exact hcross kv'.1 kv'.2 kv.1 kv.2 hkv' hkv hne p hp' hp
      have hsome := init_outer_get_mem im [] kv.1 p hall (Or.inl ⟨kv, hkv, hp⟩)
      have hm : m = kv.1 := by
        have h' : some kv.1 = some m := hsome ▸ h
        injection h' with h'
        exact h'.symm
      subst hm
      have hget : dictGet? im kv.1 = some kv.2 := dictGet?_of_mem im kv.1 kv.2 hkeys hkv
      show p ∈ (dictGet? im kv.1).getD []
      rw [hget]
      simpa using hp
    · have h0 := init_outer_get_not_mem im [] p (fun kv hkv hp => hex ⟨kv, hkv, hp⟩)
      have h0' : dictGet? (ModuleToPackage.init im).packages_to_modules p =
          dictGet? ([] : Dict String) p := h0
      rw [h0'] at h
      simp [dictGet?] at h
  · intro h
    cases hg : dictGet? im m with
    | none =>
      rw [show (ModuleToPackage.init im).modules_to_packages = im from rfl, hg] at h
      simp at h
    | some l =>
      rw [show (ModuleToPackage.init im).modules_to_packages = im from rfl, hg] at h
      simp only [Option.getD_some] at h
      have hmem : (m, l) ∈ im := mem_of_dictGet? im m l hg
      have hall : ∀ kv ∈ im, p ∈ kv.2 → kv.1 = m := by
        intro kv hkv hp
        by_contra hne
        exact hcross kv.1 kv.2 m l hkv hmem hne p hp h
      exact init_outer_get_mem im [] m p hall (Or.inl ⟨(m, l), hmem, h⟩)

/-- The `__init__` comprehension produces a dict with distinct keys. -/
theorem init_keysNodup (im : Dict (List String))
    (hkeys : (im.map Prod.fst).Nodup) : PyDicts (ModuleToPackage.init im) := by
  refine ⟨hkeys, ?_⟩
  show DictKeysNodup (im.foldl (fun acc kv => kv.2.foldl (fun acc2 v => dictSet acc2 v kv.1) acc) [])
  have inner : ∀ (m : String) (l : List String) (acc : Dict String), DictKeysNodup acc →
      DictKeysNodup (l.foldl (fun acc2 v => dictSet acc2 v m) acc) := by
    intro m l
    induction l with
    | nil => intro acc h; exact h
    | cons v vs ih =>
      intro acc h
      rw [List.foldl_cons]
      exact ih _ (keysNodup_dictSet acc v m h)
  have outer : ∀ (im' : Dict (List String)) (acc : Dict String), DictKeysNodup acc →
      DictKeysNodup (im'.foldl (fun acc kv => kv.2.foldl (fun acc2 v => dictSet acc2 v kv.1) acc) acc) := by
    intro im'
    induction im' with
    | nil => intro acc h; exact h
    | cons kv im'' ih =>
      intro acc h
      rw [List.foldl_cons]
      exact ih _ (inner kv.1 kv.2 acc h)
  exact outer im [] (by simp [DictKeysNodup])

/-- A successful `add` preserves the inverse invariant and dict
well-formedness. -/
theorem add_preserves (s : ModuleToPackage) (m : String) (ps : List String)
    (s' : ModuleToPackage) (hpy : PyDicts s) (hinv : Inverse s)
    (h : s.add m ps = .ok s') : Inverse s' ∧ PyDicts s' := by
  rcases hadd : addRev m ps s.packages_to_modules with e | rev
  · simp only [ModuleToPackage.add, hadd] at h
    exact absurd h (by simp)
  · simp only [ModuleToPackage.add, hadd] at h
    replace h : Except.ok
        (⟨dictSet s.modules_to_packages m
            ((dictGet? s.modules_to_packages m).getD [] ++ ps), rev⟩ : ModuleToPackage) =
        Except.ok s' := h
    injection h with h
    subst h
    obtain ⟨h1, h2, h3⟩ := addRev_ok m ps s.packages_to_modules rev hadd
    refine ⟨?_, keysNodup_dictSet _ _ _ hpy.1, addRev_keysNodup m ps _ rev hadd hpy.2⟩
    intro q m''
    show dictGet? rev q = some m'' ↔
      q ∈ (dictGet? (dictSet s.modules_to_packages m
        ((dictGet? s.modules_to_packages m).getD [] ++ ps)) m'').getD []
    by_cases hm : m'' = m
    · subst hm
      rw [dictGet?_set_self]
      simp only [Option.getD_some, List.mem_append]
      by_cases hq : q ∈ ps
      · rw [h2 q hq]
        simp [hq]
      · rw [h1 q hq]
        constructor
        · intro hg
          exact Or.inl ((hinv q m'').mp hg)
        · rintro (hg | hg)
          · exact (hinv q m'').mpr hg
          · exact absurd hg hq
    · rw [dictGet?_set_ne s.modules_to_packages m _ m'' (fun he => hm he.symm)]
      by_cases hq : q ∈ ps
      · rw [h2 q hq]
        constructor
        · intro hg
          injection hg with hg
          exact absurd hg.symm hm
        · intro hmem
          exfalso
          have hsome := (hinv q m'').mpr hmem
          rw [h3 q hq] at hsome
          exact absurd hsome (by simp)
      · rw [h1 q hq]
        exact hinv q m''

/-- A successful `remove_module_for_package` preserves the inverse
invariant and dict well-formedness. -/
theorem remove_preserves (s : ModuleToPackage) (pid : String) (s' : ModuleToPackage)
    (hpy : PyDicts s) (hinv : Inverse s)
    (h : s.remove_module_for_package pid = .ok s') : Inverse s' ∧ PyDicts s' := by
  rcases hg1 : dictGet? s.packages_to_modules pid with _ | m
  · simp only [ModuleToPackage.remove_module_for_package, hg1] at h
    exact absurd h (by simp)
  · rcases hg2 : dictGet? s.modules_to_packages m with _ | plist
    · simp only [ModuleToPackage.remove_module_for_package, hg1, hg2] at h
      exact absurd h (by simp)
    · rcases hpop : popRev plist s.packages_to_modules with e | rev
      · simp only [ModuleToPackage.remove_module_for_package, hg1, hg2, hpop] at h
        exact absurd h (by simp)
      · simp only [ModuleToPackage.remove_module_for_package, hg1, hg2, hpop] at h
        replace h : Except.ok
            (⟨dictPop s.modules_to_packages m, rev⟩ : ModuleToPackage) = Except.ok s' := h
        injection h with h
        subst h
        obtain ⟨h1, h2⟩ := popRev_ok plist s.packages_to_modules rev hpy.2 hpop
        refine ⟨?_, keysNodup_dictPop _ _ hpy.1, h2⟩
        intro q m''
        show dictGet? rev q = some m'' ↔
          q ∈ (dictGet? (dictPop s.modules_to_packages m) m'').getD []
        rw [h1 q]
        by_cases hq : q ∈ plist
        · simp only [if_pos hq]
          constructor
          · intro hfalse
            exact absurd hfalse (by simp)
          · intro hmem
            exfalso
            by_cases hm : m'' = m
            · subst hm
              rw [dictGet?_pop_self _ _ hpy.1] at hmem
              simp at hmem
            · rw [dictGet?_pop_ne _ _ _ (fun he => hm he.symm)] at hmem
              have hq' := (hinv q m'').mpr hmem
              have hqm : dictGet? s.packages_to_modules q = some m := by
                apply (hinv q m).mpr
                rw [hg2]
                simpa using hq
              rw [hqm] at hq'
              injection hq' with hq'
              exact hm hq'.symm
        · simp only [if_neg hq]
          by_cases hm : m'' = m
          · subst hm
            rw [dictGet?_pop_self _ _ hpy.1]
            simp only [Option.getD_none, List.not_mem_nil, iff_false]
            intro hqm
            have hmem := (hinv q m'').mp hqm
            rw [hg2] at hmem
            simp only [Option.getD_some] at hmem
            exact hq hmem
          · rw [dictGet?_pop_ne _ _ _ (fun he => hm he.symm)]
            exact hinv q m''

/-- Counterexample to claim C7 as stated: constructing the index from an
initial map that lists the same package under two different modules leaves
the reverse map pointing only at the later module, so the reverse map is
not the exact inverse of the forward map. -/
theorem C7_counterexample_bad_init :
    ¬ Inverse (ModuleToPackage.init [("m1", ["p"]), ("m2", ["p"])]) := by
  intro h
  have hmem : "p" ∈ (dictGet? (ModuleToPackage.init
      [("m1", ["p"]), ("m2", ["p"])]).modules_to_packages "m1").getD [] := by decide
  have hsome := (h "p" "m1").mpr hmem
  exact absurd hsome (by decide)

/-- Claim C7 (amended): provided the initial map has distinct module keys
and lists no package identifier under two different modules, construction
establishes the exact-inverse invariant, and every successful `add` and
every successful `remove_module_for_package` preserves it (together with
the key distinctness that real Python dicts maintain). -/
theorem C7_inverse_invariant :
    (∀ im : Dict (List String), (im.map Prod.fst).Nodup →
      (∀ m1 l1 m2 l2, (m1, l1) ∈ im → (m2, l2) ∈ im → m1 ≠ m2 → ∀ p, p ∈ l1 → p ∉ l2) →
      Inverse (ModuleToPackage.init im) ∧ PyDicts (ModuleToPackage.init im)) ∧
    (∀ (s : ModuleToPackage) (m : String) (ps : List String) (s' : ModuleToPackage),
      PyDicts s → Inverse s → s.add m ps = .ok s' → Inverse s' ∧ PyDicts s') ∧
    (∀ (s : ModuleToPackage) (p : String) (s' : ModuleToPackage),
      PyDicts s → Inverse s → s.remove_module_for_package p = .ok s' →
      Inverse s' ∧ PyDicts s') :=
  ⟨fun im hk hc => ⟨init_inverse im hk hc, init_keysNodup im hk⟩,
   fun s m ps s' hpy hinv h => add_preserves s m ps s' hpy hinv h,
   fun s p s' hpy hinv h => remove_preserves s p s' hpy hinv h⟩

/-- Witness for C7 (amended): a well-formed initial map establishes the
invariant, and a successful `add` starting from it preserves it. -/
theorem C7_inverse_invariant_witness :
    Inverse (ModuleToPackage.init [("m", ["p"])]) ∧
    (∃ s', (ModuleToPackage.init [("m", ["p"])]).add "m2" ["q"] = Except.ok s' ∧ Inverse s') := by
  have hcross : ∀ m1 l1 m2 l2, (m1, l1) ∈ ([("m", ["p"])] : Dict (List String)) →
      (m2, l2) ∈ ([("m", ["p"])] : Dict (List String)) → m1 ≠ m2 → ∀ p, p ∈ l1 → p ∉ l2 := by
    intro m1 l1 m2 l2 h1 h2 hne p hp
    simp only [List.mem_singleton, Prod.mk.injEq] at h1 h2
    exact absurd (h1.1.trans h2.1.symm) hne
  have h1 := C7_inverse_invariant.1 [("m", ["p"])] (by decide) hcross
  have hadd : (ModuleToPackage.init [("m", ["p"])]).add "m2" ["q"] =
      Except.ok ⟨[("m", ["p"]), ("m2", ["q"])], [("p", "m"), ("q", "m2")]⟩ := rfl
  exact ⟨h1.1, ⟨_, hadd, (C7_inverse_invariant.2.1 _ "m2" ["q"] _ h1.2 h1.1 hadd).1⟩⟩

/-- Claim C8: after a successful `add(module, candidates)`, `has_package`
is true exactly for the candidates and for the identifiers already present
beforehand; and `add` fails with the collision assertion when some
candidate already maps to a different module in the reverse map. -/
theorem C8_add_has_package :
    (∀ (s : ModuleToPackage) (m : String) (ps : List String) (s' : ModuleToPackage),
      s.add m ps = .ok s' →
      ∀ q, s'.has_package q = (decide (q ∈ ps) || s.has_package q)) ∧
    (∀ (s : ModuleToPackage) (m : String) (ps : List String),
      (∃ p ∈ ps, ∃ m', dictGet? s.packages_to_modules p = some m' ∧ m' ≠ m) →
      s.add m ps = .error .assertionError) := by
  constructor
  · intro s m ps s' h q
    rcases hadd : addRev m ps s.packages_to_modules with e | rev
    · simp only [ModuleToPackage.add, hadd] at h
      exact absurd h (by simp)
    · simp only [ModuleToPackage.add, hadd] at h
      replace h : Except.ok
          (⟨dictSet s.modules_to_packages m
              ((dictGet? s.modules_to_packages m).getD [] ++ ps), rev⟩ : ModuleToPackage) =
          Except.ok s' := h
      injection h with h
      subst h
      obtain ⟨h1, h2, _⟩ := addRev_ok m ps s.packages_to_modules rev hadd
      by_cases hq : q ∈ ps
      · simp [ModuleToPackage.has_package, dictMem, h2 q hq, hq]
      · simp [ModuleToPackage.has_package, dictMem, h1 q hq, hq]
  · rintro s m ps ⟨p, hp, m', hm', _⟩
    have herr := addRev_error m ps s.packages_to_modules ⟨p, hp, by simp [dictMem, hm']⟩
    simp [ModuleToPackage.add, herr]

/-- Witness for C8 on concrete states. -/
theorem C8_add_has_package_witness :
    (⟨[("m", ["p"])], [("p", "m")]⟩ : ModuleToPackage).has_package "p" =
      (decide ("p" ∈ ["p"]) || (ModuleToPackage.init []).has_package "p") ∧
    (ModuleToPackage.init [("a", ["x"])]).add "b" ["x"] = Except.error PyErr.assertionError := by
  constructor
  · exact C8_add_has_package.1 (ModuleToPackage.init []) "m" ["p"]
      ⟨[("m", ["p"])], [("p", "m")]⟩ rfl "p"
  · exact C8_add_has_package.2 (ModuleToPackage.init [("a", ["x"])]) "b" ["x"]
      ⟨"x", by decide, "a", by decide, by decide⟩

/-- Counterexample to claim C9 as stated: with a duplicated candidate in
the owning module's recorded list, `remove_module_for_package` raises
`KeyError` at the second pop even though the package is present in the
reverse map — not the claimed all-or-nothing removal. -/
theorem C9_counterexample_duplicate_candidate :
    dictGet? (ModuleToPackage.init [("m", ["p", "p"])]).packages_to_modules "p" = some "m" ∧
    (ModuleToPackage.init [("m", ["p", "p"])]).remove_module_for_package "p" =
      Except.error PyErr.keyError :=
  ⟨by decide, rfl⟩

/-- Claim C9 (amended): `remove_module_for_package` fails with a lookup
error when the package is absent from the reverse map; and in a
well-formed state (exact inverse, distinct dict keys) whose owning module
has a duplicate-free candidate list, a call on a present package succeeds,
removes every candidate of the owning module from the reverse map in one
step, and deletes the module's entry from the forward map. -/
theorem C9_remove_module :
    (∀ (s : ModuleToPackage) (pid : String),
      dictGet? s.packages_to_modules pid = none →
      s.remove_module_for_package pid = .error .keyError) ∧
    (∀ (s : ModuleToPackage) (pid m : String) (plist : List String),
      PyDicts s → Inverse s →
      dictGet? s.packages_to_modules pid = some m →
      dictGet? s.modules_to_packages m = some plist → plist.Nodup →
      ∃ s', s.remove_module_for_package pid = .ok s' ∧
        (∀ q ∈ plist, s'.has_package q = false) ∧
        dictGet? s'.modules_to_packages m = none ∧
        (∀ q, q ∉ plist → s'.has_package q = s.has_package q)) := by
  constructor
  · intro s pid h
    simp [ModuleToPackage.remove_module_for_package, h]
  · intro s pid m plist hpy hinv hg1 hg2 hnd
    have hall : ∀ q ∈ plist, dictMem s.packages_to_modules q = true := by
      intro q hq
      have hg : dictGet? s.packages_to_modules q = some m := by
        apply (hinv q m).mpr
        rw [hg2]
        simpa using hq
      simp [dictMem, hg]
    obtain ⟨rev, hpop⟩ := popRev_succeeds plist s.packages_to_modules hnd hall
    obtain ⟨h1, h2⟩ := popRev_ok plist s.packages_to_modules rev hpy.2 hpop
    refine ⟨⟨dictPop s.modules_to_packages m, rev⟩, ?_, ?_, ?_, ?_⟩
    · simp [ModuleToPackage.remove_module_for_package, hg1, hg2, hpop]
    · intro q hq
      simp [ModuleToPackage.has_package, dictMem, h1 q, hq]
    · exact dictGet?_pop_self _ _ hpy.1
    · intro q hq
      simp [ModuleToPackage.has_package, dictMem, h1 q, hq]

/-- Witness for C9: an unknown package raises the lookup error, and a
removal in a one-module state removes that module's candidates. -/
theorem C9_remove_module_witness :
    (ModuleToPackage.init []).remove_module_for_package "nope" = Except.error PyErr.keyError ∧
    ∃ s', (ModuleToPackage.init [("m", ["p"])]).remove_module_for_package "p" = Except.ok s' ∧
      (∀ q ∈ ["p"], s'.has_package q = false) ∧
      dictGet? s'.modules_to_packages "m" = none ∧
      (∀ q, q ∉ ["p"] →
        s'.has_package q = (ModuleToPackage.init [("m", ["p"])]).has_package q) := by
  constructor
  · exact C9_remove_module.1 (ModuleToPackage.init []) "nope" (by decide)
  · exact C9_remove_module.2 (ModuleToPackage.init [("m", ["p"])]) "p" "m" ["p"]
      (init_keysNodup _ (by decide))
      (init_inverse _ (by decide) (by
        intro m1 l1 m2 l2 h1 h2 hne p hp
        simp only [List.mem_singleton, Prod.mk.injEq] at h1 h2
        exact absurd (h1.1.trans h2.1.symm) hne))
      (by decide) (by decide) (by decide)

/-- Claim C10: `add` fails with the collision assertion even when the
candidate is already owned by the same module being added to — re-adding
an identifier to its own module is rejected, not a no-op or an append. -/
theorem C10_readd_same_module_rejected (s : ModuleToPackage) (m : String)
    (ps : List String) (p : String) (hp : p ∈ ps)
    (hm : dictGet? s.packages_to_modules p = some m) :
    s.add m ps = .error .assertionError := by
  have herr := addRev_error m ps s.packages_to_modules ⟨p, hp, by simp [dictMem, hm]⟩
  simp [ModuleToPackage.add, herr]

/-- Witness for C10: re-adding a module's own candidate fails. -/
theorem C10_readd_same_module_rejected_witness :
    (ModuleToPackage.init [("m", ["p"])]).add "m" ["p"] = Except.error PyErr.assertionError :=
  C10_readd_same_module_rejected (ModuleToPackage.init [("m", ["p"])]) "m" ["p"] "p"
    (by decide) (by decide)
